import Mathlib

/-!
Verification of the training / greedy-decoding script `src/models/train.py`
of the bilingual-translation transformer repository.

The numeric model (`model.encode` / `model.decode` / `model.projection`) is an
external collaborator: it is embedded as a record of pure functions over
abstract state types.  Token sequences are `List Nat`, masks are `List Bool`
(padding) and `List (List Bool)` (causal), logits are `List Int` and losses
are rationals, so that every definition is executable.
-/

namespace Train

/-- A tokenizer, as used by `train.py`: it maps special-token names to ids
and decodes id sequences back to text. -/
structure Tokenizer where
  token_to_id : String → Nat
  decode : List Nat → String

/-- Modelled from the spec: `causal_mask` is imported from
`bilingual_dataset`, whose source file is not part of the snapshot.  The spec
describes it as the L×L boolean matrix in which position (i, j) is allowed
iff j ≤ i (strictly upper-triangular forbidden). -/
def causal_mask (L : Nat) : List (List Bool) :=
  (List.range L).map (fun i => (List.range L).map (fun j => decide (j ≤ i)))

/-- The external numeric model of `train.py`, with its three entry points
`encode`, `decode` and `projection`.  `ε` is the encoder-state type, `δ` the
per-position decoder-state type; `projection` returns the logits over the
target vocabulary for one position. -/
structure Model (ε δ : Type) where
  encode : List Nat → List Bool → ε
  decode : ε → List Bool → List Nat → List (List Bool) → List δ
  projection : δ → List Int

/-- Auxiliary scan for `argmaxIdx`: `i` is the index of the head of `l` in
the original list, `bv` the best value seen so far, `best` its index.
A later element replaces the best only when strictly greater, so ties keep
the lowest index, matching `torch.max`. -/
def argmaxAux : List Int → Nat → Int → Nat → Nat
  | [], _, _, best => best
  | x :: xs, i, bv, best =>
      if bv < x then argmaxAux xs (i + 1) x i else argmaxAux xs (i + 1) bv best

/-- Index of the (first) maximal entry of a logits vector, as computed by
`torch.max(prob, dim=-1)` in `greedy_decode`. -/
def argmaxIdx : List Int → Nat
  | [] => 0
  | x :: xs => argmaxAux xs 1 x 0

/-- One step of the decoding loop body of `greedy_decode`: build the causal
mask sized to the current decoder input, run `model.decode`, project the last
position and take the arg-max token. -/
def nextToken {ε δ : Type} [Inhabited δ] (m : Model ε δ) (encoder_output : ε)
    (source_mask : List Bool) (decoder_input : List Nat) : Nat :=
  let decoder_mask := causal_mask decoder_input.length
  let out := m.decode encoder_output source_mask decoder_input decoder_mask
  let prob := m.projection (out.getLastD default)
  argmaxIdx prob

/-- Result of the greedy-decoding loop: the produced token sequence, the
number of loop iterations that appended a token, and whether the loop exited
through the `next_word == eos_idx` break (`eosExit = true`) or through the
`decoder_input.size(1) == max_len` check (`eosExit = false`). -/
structure DecodeResult where
  tokens : List Nat
  steps : Nat
  eosExit : Bool
deriving Repr, DecidableEq

/-- The `while True` loop of `greedy_decode`, with explicit fuel.  Each pass
first checks whether the decoder input has reached `max_len`, otherwise
appends the arg-max token and stops if that token is EOS.  `greedy_decode`
supplies fuel `max_len`, which is proved sufficient below. -/
def greedyLoop {ε δ : Type} [Inhabited δ] (m : Model ε δ) (encoder_output : ε)
    (source_mask : List Bool) (eos_idx max_len : Nat) :
    Nat → List Nat → Nat → DecodeResult
  | 0, acc, steps => ⟨acc, steps, false⟩
  | fuel + 1, acc, steps =>
      if acc.length = max_len then ⟨acc, steps, false⟩
      else
        let next_word := nextToken m encoder_output source_mask acc
        let acc' := acc ++ [next_word]
        if next_word = eos_idx then ⟨acc', steps + 1, true⟩
        else greedyLoop m encoder_output source_mask eos_idx max_len fuel acc' (steps + 1)

/-- Embedding of `greedy_decode` (train.py lines 21–47): look up SOS/EOS in
the target tokenizer, compute the encoder output once, and run the decoding
loop starting from the single-token sequence `[SOS]`. -/
def greedy_decode {ε δ : Type} [Inhabited δ] (m : Model ε δ) (source : List Nat)
    (source_mask : List Bool) (tokenizer_src tokenizer_tgt : Tokenizer)
    (max_len : Nat) : DecodeResult :=
  let sos_idx := tokenizer_tgt.token_to_id "[SOS]"
  let eos_idx := tokenizer_tgt.token_to_id "[EOS]"
  let encoder_output := m.encode source source_mask
  greedyLoop m encoder_output source_mask eos_idx max_len max_len [sos_idx] 0

/-- Variant of the decoding loop used for the refinement claim: identical to
`greedyLoop`, except that the encoder state is recomputed from the source at
every iteration instead of being reused. -/
def greedyLoopRecompute {ε δ : Type} [Inhabited δ] (m : Model ε δ) (source : List Nat)
    (source_mask : List Bool) (eos_idx max_len : Nat) :
    Nat → List Nat → Nat → DecodeResult
  | 0, acc, steps => ⟨acc, steps, false⟩
  | fuel + 1, acc, steps =>
      if acc.length = max_len then ⟨acc, steps, false⟩
      else
        let encoder_output := m.encode source source_mask
        let next_word := nextToken m encoder_output source_mask acc
        let acc' := acc ++ [next_word]
        if next_word = eos_idx then ⟨acc', steps + 1, true⟩
        else greedyLoopRecompute m source source_mask eos_idx max_len fuel acc' (steps + 1)

/-- Greedy decoding that calls `model.encode` afresh at every loop iteration;
compared against `greedy_decode` (which computes the encoder state once) in
the refinement claim. -/
def greedy_decode_recompute {ε δ : Type} [Inhabited δ] (m : Model ε δ) (source : List Nat)
    (source_mask : List Bool) (tokenizer_src tokenizer_tgt : Tokenizer)
    (max_len : Nat) : DecodeResult :=
  let sos_idx := tokenizer_tgt.token_to_id "[SOS]"
  let eos_idx := tokenizer_tgt.token_to_id "[EOS]"
  greedyLoopRecompute m source source_mask eos_idx max_len max_len [sos_idx] 0

/-- A validation batch as yielded by the validation data loader: the leading
dimension of `encoder_input` is the batch dimension. -/
structure Batch where
  encoder_input : List (List Nat)
  encoder_mask : List Bool
  src_text : List String
  tgt_text : List String

/-- What `run_validation` reports for one processed example: the source text,
the reference target text and the text decoded from the greedy output. -/
structure ValSample where
  source_text : String
  tgt_text : String
  predicted_text : String
deriving Repr, DecidableEq

/-- The batch loop of `run_validation` (train.py lines 62–95).  `count` is the
number of batches processed so far.  Each pass increments the count, asserts
that the batch size is 1 (a failed assertion aborts the run, embedded as
`Except.error`), runs the greedy decoder, reports the sample, and breaks once
`count = num_examples`. -/
def runValidationLoop {ε δ : Type} [Inhabited δ] (m : Model ε δ)
    (tokenizer_src tokenizer_tgt : Tokenizer) (max_len num_examples : Nat) :
    List Batch → Nat → Except String (List ValSample)
  | [], _ => .ok []
  | batch :: rest, count =>
      let count' := count + 1
      if batch.encoder_input.length = 1 then
        let model_out := greedy_decode m (batch.encoder_input.headD [])
          batch.encoder_mask tokenizer_src tokenizer_tgt max_len
        let sample : ValSample :=
          ⟨batch.src_text.headD "", batch.tgt_text.headD "",
            tokenizer_tgt.decode model_out.tokens⟩
        if count' = num_examples then .ok [sample]
        else
          match runValidationLoop m tokenizer_src tokenizer_tgt max_len num_examples rest count' with
          | .ok samples => .ok (sample :: samples)
          | .error e => .error e
      else .error "Batch size must be 1 for validation"

/-- Embedding of `run_validation` (train.py lines 50–95): iterate over the
validation batches starting from `count = 0`, producing the reported samples
or the failed batch-size assertion. -/
def run_validation {ε δ : Type} [Inhabited δ] (m : Model ε δ) (validation_ds : List Batch)
    (tokenizer_src tokenizer_tgt : Tokenizer) (max_len : Nat)
    (num_examples : Nat := 2) : Except String (List ValSample) :=
  runValidationLoop m tokenizer_src tokenizer_tgt max_len num_examples validation_ds 0

/-- Fuel-driven chunking used to embed `torch.utils.data.DataLoader`:
repeatedly take `batch_size` elements. -/
def chunkAux {α : Type} (batch_size : Nat) : Nat → List α → List (List α)
  | 0, _ => []
  | _, [] => []
  | fuel + 1, l => l.take batch_size :: chunkAux batch_size fuel (l.drop batch_size)

/-- Modelled from the spec: the batch-collation component groups encoded
examples into fixed-size batches; `get_ds` constructs the validation loader
as `DataLoader(val_ds, batch_size=1)` (train.py line 149), whose collation
semantics (an external library) is chunking the dataset into groups of
`batch_size`. -/
def dataLoader {α : Type} (batch_size : Nat) (dataset : List α) : List (List α) :=
  chunkAux batch_size dataset.length dataset

/-- A torch module as seen by `run_validation`: its parameters and its
training-mode flag.  `model.eval()` clears the flag and touches nothing
else. -/
structure TorchModule (π : Type) where
  params : π
  training : Bool

/-- `model.eval()`: switch the module to evaluation mode. -/
def TorchModule.eval {π : Type} (m : TorchModule π) : TorchModule π :=
  { m with training := false }

/-- `run_validation` at the level of a stateful module: the forward interface
`fw` derives the pure `encode`/`decode`/`projection` functions from the
parameters.  The body calls `model.eval()` and then, under `torch.no_grad()`,
only forward passes — no optimizer step and no parameter assignment — so the
resulting module is the input module with only its mode flag changed. -/
def run_validation_module {π ε δ : Type} [Inhabited δ] (fw : π → Model ε δ)
    (mod : TorchModule π) (validation_ds : List Batch)
    (tokenizer_src tokenizer_tgt : Tokenizer) (max_len : Nat)
    (num_examples : Nat := 2) : TorchModule π × Except String (List ValSample) :=
  let mod' := mod.eval
  (mod', run_validation (fw mod'.params) validation_ds tokenizer_src tokenizer_tgt
    max_len num_examples)

/-- `nn.CrossEntropyLoss(ignore_index=…, label_smoothing=0.1)` with the
default mean reduction, abstracting the per-position numeric loss as
`ell logits target` (the internal softmax/smoothing arithmetic is outside
this spec's scope): positions whose target equals `ignore_index` are dropped,
and the remaining per-position losses are averaged. -/
def cross_entropy_loss {α : Type} (ell : α → Nat → ℚ) (ignore_index : Nat)
    (logits : List α) (labels : List Nat) : ℚ :=
  let kept := (logits.zip labels).filter (fun p => decide (p.2 ≠ ignore_index))
  ((kept.map (fun p => ell p.1 p.2)).sum) / (kept.length : ℚ)

/-- The training-loop loss of one batch (train.py lines 191 and 213): the
cross-entropy of the flattened projection output against the flattened
labels, with `ignore_index` set to the SOURCE tokenizer's `[PAD]` id. -/
def train_batch_loss {α : Type} (ell : α → Nat → ℚ) (tokenizer_src : Tokenizer)
    (proj_output : List α) (label : List Nat) : ℚ :=
  cross_entropy_loss ell (tokenizer_src.token_to_id "[PAD]") proj_output label

/-- A checkpoint as saved by `torch.save` at the end of each epoch
(train.py lines 234–239): exactly the epoch index, the model state dict, the
optimizer state dict and the global step. -/
structure Ckpt (π ω : Type) where
  epoch : Nat
  model_state_dict : π
  optimizer_state_dict : ω
  global_step : Nat
deriving DecidableEq

/-- One epoch of the inner batch loop of `train_model`: fold the abstract
forward/backward/step update `upd` over the training batches, incrementing
the global step once per batch. -/
def runEpoch {π ω β : Type} (upd : π → ω → β → π × ω) (batches : List β)
    (p : π) (o : ω) (gs : Nat) : π × ω × Nat :=
  batches.foldl (fun s b =>
    let u := upd s.1 s.2.1 b
    (u.1, u.2, s.2.2 + 1)) (p, o, gs)

/-- The epoch loop of `train_model`: for each epoch index in the list, run
the batch loop, then save a checkpoint holding that epoch index and the
post-epoch model state, optimizer state and global step.  Returns the saved
checkpoints in order; each `torch.save` call writes a new file whose name
embeds the epoch index. -/
def trainEpochsLoop {π ω β : Type} (upd : π → ω → β → π × ω) (batches : List β) :
    List Nat → π → ω → Nat → List (Ckpt π ω)
  | [], _, _, _ => []
  | e :: es, p, o, gs =>
      let s := runEpoch upd batches p o gs
      ⟨e, s.1, s.2.1, s.2.2⟩ :: trainEpochsLoop upd batches es s.1 s.2.1 s.2.2

/-- Embedding of the checkpointing / resumption skeleton of `train_model`
(train.py lines 176–239).  Modelled from the spec where the snapshot lacks
the source: `get_weights_file_path` / `latest_weights_file_path` live in
`config.py`, and the spec gives the path pattern
`\x7bdatasource\x7d_\x7bmodel_folder\x7d/\x7bmodel_basename\x7d\x7bepoch:02d\x7d.\x7bext\x7d`,
so a saved file is identified by its epoch index and distinct epoch indices
mean distinct files.  `preload` is the checkpoint resolved from the preload
selector (`'latest'` or an explicit epoch), `none` when starting from
scratch.  When a checkpoint is preloaded, the model state is restored, the
initial epoch becomes the saved epoch plus one, and the optimizer state and
global step are restored (lines 179–187). -/
def train_model {π ω β : Type} (num_epochs : Nat) (preload : Option (Ckpt π ω))
    (upd : π → ω → β → π × ω) (batches : List β) (p₀ : π) (o₀ : ω) :
    List (Ckpt π ω) :=
  let init : Nat × π × ω × Nat :=
    match preload with
    | some st => (st.epoch + 1, st.model_state_dict, st.optimizer_state_dict, st.global_step)
    | none => (0, p₀, o₀, 0)
  trainEpochsLoop upd batches (List.range' init.1 (num_epochs - init.1))
    init.2.1 init.2.2.1 init.2.2.2

/-- A trivial concrete model used to instantiate the theorems on closed
inputs: encoder and decoder states are `Unit`, and the projected logits are
constantly `[0, 0, 5]`, so the arg-max token is always 2. -/
def toyModel : Model Unit Unit :=
  ⟨fun _ _ => (), fun _ _ _ _ => [()], fun _ => [0, 0, 5]⟩

/-- A toy tokenizer with `[PAD] = 0`, `[SOS] = 1`, `[EOS] = 2`. -/
def toyTok : Tokenizer :=
  ⟨fun s => if s = "[SOS]" then 1 else if s = "[EOS]" then 2 else 0, fun _ => "t"⟩

/-- A toy model with a nontrivial encoder state, used to instantiate the
encoder-reuse theorem. -/
def toyModelN : Model Nat Unit :=
  ⟨fun s _ => s.length, fun _ _ _ _ => [()], fun _ => [0, 0, 5]⟩

/-- Variant of `toyModelN` whose `encode` differs on the input `[9, 9]` but
agrees on `[3]`. -/
def toyModelN' : Model Nat Unit :=
  ⟨fun s _ => if s = [9, 9] then 7 else s.length, fun _ _ _ _ => [()], fun _ => [0, 0, 5]⟩

/-- A batch with empty leading dimension, violating the validation
precondition. -/
def badBatch : Batch := ⟨[], [], [], []⟩

/-- A well-formed singleton validation batch for concrete runs. -/
def goodBatch : Batch := ⟨[[3]], [true], ["s"], ["t"]⟩

/-- The number of samples reported by a validation run, `none` when the run
aborted. -/
def sampleCount : Except String (List ValSample) → Option Nat
  | .ok s => some s.length
  | .error _ => none

/-- An abstract per-batch update on concrete state types, used to
instantiate the checkpoint theorem. -/
def updToy : Nat → Nat → Nat → Nat × Nat := fun p o b => (p + b, o + 1)

section GreedyLoopLemmas

variable {ε δ : Type} [Inhabited δ] (m : Model ε δ) (enc : ε) (mask : List Bool)
variable (eos maxlen : Nat)

/-- The decoding loop only appends: its output extends the accumulator. -/
theorem greedyLoop_tokens_append :
    ∀ (fuel : Nat) (acc : List Nat) (steps : Nat),
      ∃ t, (greedyLoop m enc mask eos maxlen fuel acc steps).tokens = acc ++ t := by
  intro fuel
  induction fuel with
  | zero => intro acc steps; exact ⟨[], by simp [greedyLoop]⟩
  | succ fuel ih =>
    intro acc steps
    by_cases h : acc.length = maxlen
    · exact ⟨[], by simp [greedyLoop, h]⟩
    · by_cases hw : nextToken m enc mask acc = eos
      · exact ⟨[nextToken m enc mask acc], by simp [greedyLoop, h, hw]⟩
      · obtain ⟨t, ht⟩ := ih (acc ++ [nextToken m enc mask acc]) (steps + 1)
        refine ⟨nextToken m enc mask acc :: t, ?_⟩
        simp only [greedyLoop, h, if_false, hw, if_neg hw, ite_false]
        simpa using ht

/-- The output of the decoding loop never exceeds `max_len` tokens, provided
the accumulator does not. -/
theorem greedyLoop_length_le :
    ∀ (fuel : Nat) (acc : List Nat) (steps : Nat), acc.length ≤ maxlen →
      (greedyLoop m enc mask eos maxlen fuel acc steps).tokens.length ≤ maxlen := by
  intro fuel
  induction fuel with
  | zero => intro acc steps h; simpa [greedyLoop] using h
  | succ fuel ih =>
    intro acc steps h
    by_cases hl : acc.length = maxlen
    · simp [greedyLoop, hl]
    · have hlt : acc.length < maxlen := lt_of_le_of_ne h hl
      by_cases hw : nextToken m enc mask acc = eos
      · simp only [greedyLoop, hl, if_false, hw, if_pos hw, ite_false]
        simpa using hlt
      · simp only [greedyLoop, hl, if_false, hw, if_neg hw, ite_false]
        exact ih (acc ++ [nextToken m enc mask acc]) (steps + 1) (by simpa using hlt)

/-- Each loop iteration appends exactly one token: the step counter advances
in lock-step with the length of the token sequence. -/
theorem greedyLoop_steps_eq :
    ∀ (fuel : Nat) (acc : List Nat) (steps : Nat),
      (greedyLoop m enc mask eos maxlen fuel acc steps).steps + acc.length =
        steps + (greedyLoop m enc mask eos maxlen fuel acc steps).tokens.length := by
  intro fuel
  induction fuel with
  | zero => intro acc steps; simp [greedyLoop, Nat.add_comm]
  | succ fuel ih =>
    intro acc steps
    by_cases hl : acc.length = maxlen
    · simp [greedyLoop, hl, Nat.add_comm]
    · by_cases hw : nextToken m enc mask acc = eos
      · simp only [greedyLoop, hl, if_false, hw, if_pos hw, ite_false]
        simp; omega
      · simp only [greedyLoop, hl, if_false, hw, if_neg hw, ite_false]
        have := ih (acc ++ [nextToken m enc mask acc]) (steps + 1)
        simp at this; omega

/-- Exit analysis of the decoding loop: with enough fuel, the loop stops
either through the EOS break (and then the last token is EOS) or through the
length check (and then the output has exactly `max_len` tokens). -/
theorem greedyLoop_exit :
    ∀ (fuel : Nat) (acc : List Nat) (steps : Nat), acc.length ≤ maxlen →
      maxlen ≤ acc.length + fuel →
      ((greedyLoop m enc mask eos maxlen fuel acc steps).eosExit = true ∧
          (greedyLoop m enc mask eos maxlen fuel acc steps).tokens.getLast? = some eos) ∨
        ((greedyLoop m enc mask eos maxlen fuel acc steps).eosExit = false ∧
          (greedyLoop m enc mask eos maxlen fuel acc steps).tokens.length = maxlen) := by
  intro fuel
  induction fuel with
  | zero =>
    intro acc steps h1 h2
    right
    constructor
    · simp [greedyLoop]
    · simp only [greedyLoop]
      omega
  | succ fuel ih =>
    intro acc steps h1 h2
    by_cases hl : acc.length = maxlen
    · right; simp [greedyLoop, hl]
    · have hlt : acc.length < maxlen := lt_of_le_of_ne h1 hl
      by_cases hw : nextToken m enc mask acc = eos
      · left
        simp only [greedyLoop, hl, if_false, hw, if_pos hw, ite_false]
        simp [hw]
      · simp only [greedyLoop, hl, if_false, hw, if_neg hw, ite_false]
        exact ih (acc ++ [nextToken m enc mask acc]) (steps + 1)
          (by simpa using hlt) (by simp; omega)

/-- If the accumulator does not end in EOS and the loop exits through the
length check, the output does not end in EOS either: the EOS break fires
immediately on an appended EOS. -/
theorem greedyLoop_last_ne :
    ∀ (fuel : Nat) (acc : List Nat) (steps : Nat), acc.getLast? ≠ some eos →
      (greedyLoop m enc mask eos maxlen fuel acc steps).eosExit = false →
      (greedyLoop m enc mask eos maxlen fuel acc steps).tokens.getLast? ≠ some eos := by
  intro fuel
  induction fuel with
  | zero => intro acc steps h _; simpa [greedyLoop] using h
  | succ fuel ih =>
    intro acc steps h hexit
    by_cases hl : acc.length = maxlen
    · simpa [greedyLoop, hl] using h
    · by_cases hw : nextToken m enc mask acc = eos
      · exfalso
        simp [greedyLoop, hl, hw] at hexit
      · simp only [greedyLoop, hl, if_false, hw, if_neg hw, ite_false] at hexit ⊢
        refine ih (acc ++ [nextToken m enc mask acc]) (steps + 1) ?_ hexit
        simp [List.getLast?_concat, hw]

/-- EOS never occurs strictly before the last position of the output,
provided it does not occur in the accumulator. -/
theorem greedyLoop_eos_not_in_dropLast :
    ∀ (fuel : Nat) (acc : List Nat) (steps : Nat), eos ∉ acc →
      eos ∉ (greedyLoop m enc mask eos maxlen fuel acc steps).tokens.dropLast := by
  intro fuel
  induction fuel with
  | zero =>
    intro acc steps h
    simp only [greedyLoop]
    exact fun hmem => h (List.dropLast_subset _ hmem)
  | succ fuel ih =>
    intro acc steps h
    by_cases hl : acc.length = maxlen
    · simp only [greedyLoop, hl, if_true, ite_true]
      exact fun hmem => h (List.dropLast_subset _ hmem)
    · by_cases hw : nextToken m enc mask acc = eos
      · simp only [greedyLoop, hl, if_false, hw, if_pos hw, ite_false]
        simpa [List.dropLast_concat] using h
      · simp only [greedyLoop, hl, if_false, hw, if_neg hw, ite_false]
        refine ih (acc ++ [nextToken m enc mask acc]) (steps + 1) ?_
        simp [h, Ne.symm hw]

/-- Fuel irrelevance: any fuel of at least `max_len − acc.length` yields the
same result, so the embedded loop computes the limit of the `while True`
loop. -/
theorem greedyLoop_fuel_stable :
    ∀ (fuel fuel' : Nat) (acc : List Nat) (steps : Nat), acc.length ≤ maxlen →
      maxlen ≤ acc.length + fuel → maxlen ≤ acc.length + fuel' →
      greedyLoop m enc mask eos maxlen fuel acc steps =
        greedyLoop m enc mask eos maxlen fuel' acc steps := by
  intro fuel
  induction fuel with
  | zero =>
    intro fuel' acc steps h1 h2 h3
    have hl : acc.length = maxlen := by omega
    cases fuel' with
    | zero => rfl
    | succ fuel' => simp [greedyLoop, hl]
  | succ fuel ih =>
    intro fuel' acc steps h1 h2 h3
    by_cases hl : acc.length = maxlen
    · cases fuel' with
      | zero => simp [greedyLoop, hl]
      | succ fuel' => simp [greedyLoop, hl]
    · have hlt : acc.length < maxlen := lt_of_le_of_ne h1 hl
      cases fuel' with
      | zero => omega
      | succ fuel' =>
        by_cases hw : nextToken m enc mask acc = eos
        · simp [greedyLoop, hl, hw]
        · simp only [greedyLoop, hl, if_false, hw, if_neg hw, ite_false]
          exact ih fuel' (acc ++ [nextToken m enc mask acc]) (steps + 1)
            (by simpa using hlt) (by simp; omega) (by simp; omega)

end GreedyLoopLemmas

/-- Entry formula for the causal mask, at in-range indices. -/
theorem causal_mask_getD (L i j : Nat) (hi : i < L) (hj : j < L) :
    ((causal_mask L).getD i []).getD j false = decide (j ≤ i) := by
  simp [causal_mask, List.getD_eq_getElem?_getD, List.getElem?_map, List.getElem?_range, hi, hj]

/-- **C3.** For every L ≥ 1 the causal mask used for decoder self-attention
is an L×L boolean matrix whose entry (i, j) is allowed iff j ≤ i:
lower-triangular including the diagonal, with every strictly-upper-triangular
position forbidden. -/
theorem causal_mask_lower_triangular (L : Nat) (hL : 1 ≤ L) :
    (causal_mask L).length = L ∧
    (∀ row ∈ causal_mask L, row.length = L) ∧
    (∀ i j, i < L → j < L →
      (((causal_mask L).getD i []).getD j false = true ↔ j ≤ i)) := by
  refine ⟨by simp [causal_mask], ?_, ?_⟩
  · intro row hrow
    simp only [causal_mask, List.mem_map, List.mem_range] at hrow
    obtain ⟨i, _, rfl⟩ := hrow
    simp
  · intro i j hi hj
    rw [causal_mask_getD L i j hi hj]
    simp

/-- Witness for **C3** at L = 3. -/
theorem causal_mask_lower_triangular_witness :
    (causal_mask 3).length = 3 ∧
    (∀ row ∈ causal_mask 3, row.length = 3) ∧
    (∀ i j, i < 3 → j < 3 →
      (((causal_mask 3).getD i []).getD j false = true ↔ j ≤ i)) :=
  causal_mask_lower_triangular 3 (by decide)

/-- **C2.** For every model and single-sequence input, `greedy_decode`
terminates: its loop appends at most `max_len − 1` tokens, the result is
stable under any fuel of at least `max_len`, the loop stops through the EOS
break (last token EOS) or the length check, whichever happens first, and in
the length-reaching case the returned sequence has length exactly `max_len`
and carries no trailing EOS token. -/
theorem greedy_decode_terminates {ε δ : Type} [Inhabited δ] (m : Model ε δ)
    (source : List Nat) (source_mask : List Bool)
    (tokenizer_src tokenizer_tgt : Tokenizer) (max_len : Nat)
    (hmax : 1 ≤ max_len)
    (hse : tokenizer_tgt.token_to_id "[SOS]" ≠ tokenizer_tgt.token_to_id "[EOS]") :
    (greedy_decode m source source_mask tokenizer_src tokenizer_tgt max_len).steps ≤
        max_len - 1 ∧
    (greedy_decode m source source_mask tokenizer_src tokenizer_tgt max_len).tokens.length ≤
        max_len ∧
    ((greedy_decode m source source_mask tokenizer_src tokenizer_tgt max_len).eosExit = true →
      (greedy_decode m source source_mask tokenizer_src tokenizer_tgt max_len).tokens.getLast? =
        some (tokenizer_tgt.token_to_id "[EOS]")) ∧
    ((greedy_decode m source source_mask tokenizer_src tokenizer_tgt max_len).eosExit = false →
      (greedy_decode m source source_mask tokenizer_src tokenizer_tgt max_len).tokens.length =
          max_len ∧
      (greedy_decode m source source_mask tokenizer_src tokenizer_tgt max_len).tokens.getLast? ≠
        some (tokenizer_tgt.token_to_id "[EOS]")) ∧
    (∀ fuel, max_len ≤ fuel →
      greedyLoop m (m.encode source source_mask) source_mask
          (tokenizer_tgt.token_to_id "[EOS]") max_len fuel
          [tokenizer_tgt.token_to_id "[SOS]"] 0 =
        greedy_decode m source source_mask tokenizer_src tokenizer_tgt max_len) := by
  have hgd : greedy_decode m source source_mask tokenizer_src tokenizer_tgt max_len =
      greedyLoop m (m.encode source source_mask) source_mask
        (tokenizer_tgt.token_to_id "[EOS]") max_len max_len
        [tokenizer_tgt.token_to_id "[SOS]"] 0 := rfl
  rw [hgd]
  have h1 : ([tokenizer_tgt.token_to_id "[SOS]"] : List Nat).length ≤ max_len := by
    simpa using hmax
  have h2 : max_len ≤ ([tokenizer_tgt.token_to_id "[SOS]"] : List Nat).length + max_len := by
    simp
  have hlen := greedyLoop_length_le m (m.encode source source_mask) source_mask
    (tokenizer_tgt.token_to_id "[EOS]") max_len max_len
    [tokenizer_tgt.token_to_id "[SOS]"] 0 h1
  have hsteps := greedyLoop_steps_eq m (m.encode source source_mask) source_mask
    (tokenizer_tgt.token_to_id "[EOS]") max_len max_len
    [tokenizer_tgt.token_to_id "[SOS]"] 0
  have hexit := greedyLoop_exit m (m.encode source source_mask) source_mask
    (tokenizer_tgt.token_to_id "[EOS]") max_len max_len
    [tokenizer_tgt.token_to_id "[SOS]"] 0 h1 h2
  refine ⟨?_, hlen, ?_, ?_, ?_⟩
  · simp only [List.length_singleton] at hsteps
    omega
  · intro htrue
    rcases hexit with ⟨_, hlast⟩ | ⟨hfalse, _⟩
    · exact hlast
    · rw [htrue] at hfalse; cases hfalse
  · intro hfalse
    rcases hexit with ⟨htrue, _⟩ | ⟨_, hlenmax⟩
    · rw [hfalse] at htrue; cases htrue
    · refine ⟨hlenmax, ?_⟩
      refine greedyLoop_last_ne m (m.encode source source_mask) source_mask
        (tokenizer_tgt.token_to_id "[EOS]") max_len max_len
        [tokenizer_tgt.token_to_id "[SOS]"] 0 ?_ hfalse
      simpa using hse
  · intro fuel hfuel
    exact greedyLoop_fuel_stable m (m.encode source source_mask) source_mask
      (tokenizer_tgt.token_to_id "[EOS]") max_len fuel max_len
      [tokenizer_tgt.token_to_id "[SOS]"] 0 h1 (by simp; omega) h2

/-- Witness for **C2** on the toy model with `max_len = 4`. -/
theorem greedy_decode_terminates_witness :
    (greedy_decode toyModel [3] [true] toyTok toyTok 4).steps ≤ 4 - 1 ∧
    (greedy_decode toyModel [3] [true] toyTok toyTok 4).tokens.length ≤ 4 ∧
    ((greedy_decode toyModel [3] [true] toyTok toyTok 4).eosExit = true →
      (greedy_decode toyModel [3] [true] toyTok toyTok 4).tokens.getLast? =
        some (toyTok.token_to_id "[EOS]")) ∧
    ((greedy_decode toyModel [3] [true] toyTok toyTok 4).eosExit = false →
      (greedy_decode toyModel [3] [true] toyTok toyTok 4).tokens.length = 4 ∧
      (greedy_decode toyModel [3] [true] toyTok toyTok 4).tokens.getLast? ≠
        some (toyTok.token_to_id "[EOS]")) ∧
    (∀ fuel, 4 ≤ fuel →
      greedyLoop toyModel (toyModel.encode [3] [true]) [true]
          (toyTok.token_to_id "[EOS]") 4 fuel [toyTok.token_to_id "[SOS]"] 0 =
        greedy_decode toyModel [3] [true] toyTok toyTok 4) :=
  greedy_decode_terminates toyModel [3] [true] toyTok toyTok 4 (by decide) (by decide)

/-- Lists in which `e` does not occur before the last position contain `e` at
most once. -/
theorem count_le_one_of_not_mem_dropLast (l : List Nat) (e : Nat)
    (h : e ∉ l.dropLast) : l.count e ≤ 1 := by
  rcases List.eq_nil_or_concat l with rfl | ⟨l', a, rfl⟩
  · simp
  · rw [List.concat_eq_append] at h ⊢
    rw [List.dropLast_concat] at h
    rw [List.count_append, List.count_eq_zero.mpr h]
    simp [List.count_cons]
    split <;> omega

/-- **C10.** Every sequence returned by `greedy_decode` begins with the SOS
token, and the EOS token occurs in it at most once, only as the final
element. -/
theorem greedy_decode_sos_eos_invariant {ε δ : Type} [Inhabited δ] (m : Model ε δ)
    (source : List Nat) (source_mask : List Bool)
    (tokenizer_src tokenizer_tgt : Tokenizer) (max_len : Nat)
    (hse : tokenizer_tgt.token_to_id "[SOS]" ≠ tokenizer_tgt.token_to_id "[EOS]") :
    (greedy_decode m source source_mask tokenizer_src tokenizer_tgt max_len).tokens.head? =
        some (tokenizer_tgt.token_to_id "[SOS]") ∧
    tokenizer_tgt.token_to_id "[EOS]" ∉
      (greedy_decode m source source_mask tokenizer_src tokenizer_tgt max_len).tokens.dropLast ∧
    (greedy_decode m source source_mask tokenizer_src tokenizer_tgt max_len).tokens.count
        (tokenizer_tgt.token_to_id "[EOS]") ≤ 1 := by
  have hgd : greedy_decode m source source_mask tokenizer_src tokenizer_tgt max_len =
      greedyLoop m (m.encode source source_mask) source_mask
        (tokenizer_tgt.token_to_id "[EOS]") max_len max_len
        [tokenizer_tgt.token_to_id "[SOS]"] 0 := rfl
  rw [hgd]
  have hdrop := greedyLoop_eos_not_in_dropLast m (m.encode source source_mask) source_mask
    (tokenizer_tgt.token_to_id "[EOS]") max_len max_len
    [tokenizer_tgt.token_to_id "[SOS]"] 0 (by simpa using (Ne.symm hse))
  obtain ⟨t, ht⟩ := greedyLoop_tokens_append m (m.encode source source_mask) source_mask
    (tokenizer_tgt.token_to_id "[EOS]") max_len max_len
    [tokenizer_tgt.token_to_id "[SOS]"] 0
  refine ⟨?_, hdrop, ?_⟩
  · rw [ht]; rfl
  · exact count_le_one_of_not_mem_dropLast _ _ hdrop

/-- Witness for **C10** on the toy model. -/
theorem greedy_decode_sos_eos_invariant_witness :
    (greedy_decode toyModel [3] [true] toyTok toyTok 4).tokens.head? =
        some (toyTok.token_to_id "[SOS]") ∧
    toyTok.token_to_id "[EOS]" ∉
      (greedy_decode toyModel [3] [true] toyTok toyTok 4).tokens.dropLast ∧
    (greedy_decode toyModel [3] [true] toyTok toyTok 4).tokens.count
        (toyTok.token_to_id "[EOS]") ≤ 1 :=
  greedy_decode_sos_eos_invariant toyModel [3] [true] toyTok toyTok 4 (by decide)

/-- If no remaining entry strictly exceeds the running best value, the
arg-max scan keeps the current best index. -/
theorem argmaxAux_of_le :
    ∀ (xs : List Int) (i : Nat) (bv : Int) (best : Nat),
      (∀ y ∈ xs, y ≤ bv) → argmaxAux xs i bv best = best := by
  intro xs
  induction xs with
  | nil => intro i bv best _; rfl
  | cons y ys ih =>
    intro i bv best h
    have hy : y ≤ bv := h y (by simp)
    simp only [argmaxAux, if_neg (not_lt.mpr hy)]
    exact ih (i + 1) bv best (fun z hz => h z (by simp [hz]))

/-- If position `j` of the remaining entries holds a strict maximum that also
exceeds the running best value, the arg-max scan returns its absolute
index. -/
theorem argmaxAux_strict :
    ∀ (xs : List Int) (j i : Nat) (bv : Int) (best : Nat), j < xs.length →
      bv < xs.getD j 0 →
      (∀ k, k < xs.length → k ≠ j → xs.getD k 0 < xs.getD j 0) →
      argmaxAux xs i bv best = i + j := by
  intro xs
  induction xs with
  | nil => intro j i bv best hj; simp at hj
  | cons y ys ih =>
    intro j i bv best hj hbv hmax
    cases j with
    | zero =>
      have hy : bv < y := by simpa using hbv
      simp only [argmaxAux, if_pos hy]
      have hle : ∀ z ∈ ys, z ≤ y := by
        intro z hz
        obtain ⟨k, hk, rfl⟩ := List.mem_iff_getElem.mp hz
        have hk1 := hmax (k + 1) (by simpa using Nat.succ_lt_succ hk) (by omega)
        rw [List.getD_cons_succ, List.getD_cons_zero, List.getD_eq_getElem ys 0 hk] at hk1
        exact le_of_lt hk1
      rw [argmaxAux_of_le ys (i + 1) y i hle]
      omega
    | succ j' =>
      have hj' : j' < ys.length := by simpa using hj
      have hbv' : bv < ys.getD j' 0 := by rwa [List.getD_cons_succ] at hbv
      have hmax' : ∀ k, k < ys.length → k ≠ j' → ys.getD k 0 < ys.getD j' 0 := by
        intro k hk hkj
        have := hmax (k + 1) (by simpa using Nat.succ_lt_succ hk) (by omega)
        rwa [List.getD_cons_succ, List.getD_cons_succ] at this
      by_cases hy : bv < y
      · simp only [argmaxAux, if_pos hy]
        have h0 : y < ys.getD j' 0 := by
          have := hmax 0 (by simp) (by omega)
          rwa [List.getD_cons_zero, List.getD_cons_succ] at this
        rw [ih j' (i + 1) y i hj' h0 hmax']
        omega
      · simp only [argmaxAux, if_neg hy]
        rw [ih j' (i + 1) bv best hj' hbv' hmax']
        omega

/-- `argmaxIdx` returns the index of a unique strict maximum, matching the
`torch.max` convention. -/
theorem argmaxIdx_unique_max (l : List Int) (e : Nat) (he : e < l.length)
    (hmax : ∀ k, k < l.length → k ≠ e → l.getD k 0 < l.getD e 0) :
    argmaxIdx l = e := by
  cases l with
  | nil => simp at he
  | cons x xs =>
    cases e with
    | zero =>
      simp only [argmaxIdx]
      apply argmaxAux_of_le
      intro z hz
      obtain ⟨k, hk, rfl⟩ := List.mem_iff_getElem.mp hz
      have hk1 := hmax (k + 1) (by simpa using Nat.succ_lt_succ hk) (by omega)
      rw [List.getD_cons_succ, List.getD_cons_zero, List.getD_eq_getElem xs 0 hk] at hk1
      exact le_of_lt hk1
    | succ e' =>
      simp only [argmaxIdx]
      have he' : e' < xs.length := by simpa using he
      have h1 : x < xs.getD e' 0 := by
        have := hmax 0 (by simp) (by omega)
        rwa [List.getD_cons_zero, List.getD_cons_succ] at this
      have hmax' : ∀ k, k < xs.length → k ≠ e' → xs.getD k 0 < xs.getD e' 0 := by
        intro k hk hkj
        have := hmax (k + 1) (by simpa using Nat.succ_lt_succ hk) (by omega)
        rwa [List.getD_cons_succ, List.getD_cons_succ] at this
      rw [argmaxAux_strict xs e' 1 x 0 he' h1 hmax']
      omega

/-- **C4.** If at the first decoding step the projected logits for the last
position attain their (unique strict) maximum at the EOS id, `greedy_decode`
returns exactly the two-token sequence [SOS, EOS] after one loop iteration,
exiting through the EOS break and hence without the decoder input reaching
`max_len` (assuming `max_len ≥ 2`). -/
theorem greedy_decode_first_step_eos {ε δ : Type} [Inhabited δ] (m : Model ε δ)
    (source : List Nat) (source_mask : List Bool)
    (tokenizer_src tokenizer_tgt : Tokenizer) (max_len : Nat)
    (hmax : 2 ≤ max_len)
    (heos : tokenizer_tgt.token_to_id "[EOS]" <
      (m.projection ((m.decode (m.encode source source_mask) source_mask
        [tokenizer_tgt.token_to_id "[SOS]"] (causal_mask 1)).getLastD default)).length)
    (hstrict : ∀ k,
      k < (m.projection ((m.decode (m.encode source source_mask) source_mask
        [tokenizer_tgt.token_to_id "[SOS]"] (causal_mask 1)).getLastD default)).length →
      k ≠ tokenizer_tgt.token_to_id "[EOS]" →
      (m.projection ((m.decode (m.encode source source_mask) source_mask
        [tokenizer_tgt.token_to_id "[SOS]"] (causal_mask 1)).getLastD default)).getD k 0 <
        (m.projection ((m.decode (m.encode source source_mask) source_mask
          [tokenizer_tgt.token_to_id "[SOS]"] (causal_mask 1)).getLastD default)).getD
          (tokenizer_tgt.token_to_id "[EOS]") 0) :
    greedy_decode m source source_mask tokenizer_src tokenizer_tgt max_len =
      ⟨[tokenizer_tgt.token_to_id "[SOS]", tokenizer_tgt.token_to_id "[EOS]"], 1, true⟩ := by
  have hnext : nextToken m (m.encode source source_mask) source_mask
      [tokenizer_tgt.token_to_id "[SOS]"] = tokenizer_tgt.token_to_id "[EOS]" := by
    simp only [nextToken, List.length_singleton]
    exact argmaxIdx_unique_max _ _ heos hstrict
  obtain ⟨n, rfl⟩ : ∃ n, max_len = n + 2 := ⟨max_len - 2, by omega⟩
  show greedyLoop m (m.encode source source_mask) source_mask
      (tokenizer_tgt.token_to_id "[EOS]") (n + 2) (n + 2)
      [tokenizer_tgt.token_to_id "[SOS]"] 0 = _
  have hfuel : n + 2 = (n + 1) + 1 := rfl
  rw [hfuel, greedyLoop]
  rw [if_neg (by simp), hnext, if_pos rfl]
  simp

/-- Witness for **C4** on the toy model, whose logits `[0, 0, 5]` have their
unique maximum at the EOS id 2. -/
theorem greedy_decode_first_step_eos_witness :
    greedy_decode toyModel [3] [true] toyTok toyTok 4 =
      ⟨[toyTok.token_to_id "[SOS]", toyTok.token_to_id "[EOS]"], 1, true⟩ :=
  greedy_decode_first_step_eos toyModel [3] [true] toyTok toyTok 4
    (by decide) (by decide) (by decide)

/-- Recomputing the pure encoder state at every loop iteration yields the
same loop result as computing it once. -/
theorem greedyLoopRecompute_eq {ε δ : Type} [Inhabited δ] (m : Model ε δ)
    (source : List Nat) (source_mask : List Bool) (eos maxlen : Nat) :
    ∀ (fuel : Nat) (acc : List Nat) (steps : Nat),
      greedyLoopRecompute m source source_mask eos maxlen fuel acc steps =
        greedyLoop m (m.encode source source_mask) source_mask eos maxlen fuel acc steps := by
  intro fuel
  induction fuel with
  | zero => intro acc steps; rfl
  | succ fuel ih =>
    intro acc steps
    by_cases hl : acc.length = maxlen
    · simp [greedyLoopRecompute, greedyLoop, hl]
    · by_cases hw : nextToken m (m.encode source source_mask) source_mask acc = eos
      · simp [greedyLoopRecompute, greedyLoop, hl, hw]
      · simp only [greedyLoopRecompute, greedyLoop, hl, if_false, hw, if_neg hw, ite_false]
        exact ih (acc ++ [nextToken m (m.encode source source_mask) source_mask acc]) (steps + 1)

/-- The decoding loop is determined by its step function: two models whose
step functions agree produce identical loop results. -/
theorem greedyLoop_congr {ε ε' δ δ' : Type} [Inhabited δ] [Inhabited δ']
    (m : Model ε δ) (m' : Model ε' δ') (enc : ε) (enc' : ε') (mask : List Bool)
    (eos maxlen : Nat)
    (hstep : ∀ acc, nextToken m' enc' mask acc = nextToken m enc mask acc) :
    ∀ (fuel : Nat) (acc : List Nat) (steps : Nat),
      greedyLoop m' enc' mask eos maxlen fuel acc steps =
        greedyLoop m enc mask eos maxlen fuel acc steps := by
  intro fuel
  induction fuel with
  | zero => intro acc steps; rfl
  | succ fuel ih =>
    intro acc steps
    by_cases hl : acc.length = maxlen
    · simp [greedyLoop, hl]
    · by_cases hw : nextToken m enc mask acc = eos
      · simp [greedyLoop, hl, hstep, hw]
      · simp only [greedyLoop, hl, if_false, hstep, hw, if_neg hw, ite_false]
        exact ih (acc ++ [nextToken m enc mask acc]) (steps + 1)

/-- **C7.** `model.encode` is computed once before the decoding loop and its
result reused unchanged at every iteration: since `encode` is a pure
function, greedy decoding equals the variant recomputing the encoder state
at each step, and the result depends on `encode` only through its single
value at the given source. -/
theorem greedy_decode_encoder_state_reuse {ε δ : Type} [Inhabited δ] (m : Model ε δ)
    (source : List Nat) (source_mask : List Bool)
    (tokenizer_src tokenizer_tgt : Tokenizer) (max_len : Nat) :
    greedy_decode_recompute m source source_mask tokenizer_src tokenizer_tgt max_len =
      greedy_decode m source source_mask tokenizer_src tokenizer_tgt max_len ∧
    (∀ m' : Model ε δ, m'.decode = m.decode → m'.projection = m.projection →
      m'.encode source source_mask = m.encode source source_mask →
      greedy_decode m' source source_mask tokenizer_src tokenizer_tgt max_len =
        greedy_decode m source source_mask tokenizer_src tokenizer_tgt max_len) := by
  constructor
  · exact greedyLoopRecompute_eq m source source_mask
      (tokenizer_tgt.token_to_id "[EOS]") max_len max_len
      [tokenizer_tgt.token_to_id "[SOS]"] 0
  · intro m' hdec hproj henc
    show greedyLoop m' (m'.encode source source_mask) source_mask
        (tokenizer_tgt.token_to_id "[EOS]") max_len max_len
        [tokenizer_tgt.token_to_id "[SOS]"] 0 =
      greedyLoop m (m.encode source source_mask) source_mask
        (tokenizer_tgt.token_to_id "[EOS]") max_len max_len
        [tokenizer_tgt.token_to_id "[SOS]"] 0
    refine greedyLoop_congr m m' (m.encode source source_mask)
      (m'.encode source source_mask) source_mask
      (tokenizer_tgt.token_to_id "[EOS]") max_len ?_ max_len
      [tokenizer_tgt.token_to_id "[SOS]"] 0
    intro acc
    simp only [nextToken, hdec, hproj, henc]

/-- Witness for **C7** on concrete toy models. -/
theorem greedy_decode_encoder_state_reuse_witness :
    (greedy_decode_recompute toyModelN [3] [true] toyTok toyTok 4 =
      greedy_decode toyModelN [3] [true] toyTok toyTok 4) ∧
    greedy_decode toyModelN' [3] [true] toyTok toyTok 4 =
      greedy_decode toyModelN [3] [true] toyTok toyTok 4 :=
  ⟨(greedy_decode_encoder_state_reuse toyModelN [3] [true] toyTok toyTok 4).1,
    (greedy_decode_encoder_state_reuse toyModelN [3] [true] toyTok toyTok 4).2
      toyModelN' rfl rfl (by decide)⟩

/-- Every batch yielded by a batch-size-1 loader is a singleton. -/
theorem chunkAux_one_length {α : Type} :
    ∀ (fuel : Nat) (l : List α) (b : List α), b ∈ chunkAux 1 fuel l → b.length = 1 := by
  intro fuel
  induction fuel with
  | zero => intro l b hb; simp [chunkAux] at hb
  | succ fuel ih =>
    intro l b hb
    cases l with
    | nil => simp [chunkAux] at hb
    | cons x xs =>
      simp only [chunkAux, List.take_succ_cons, List.take_zero, List.drop_succ_cons,
        List.drop_zero, List.mem_cons] at hb
      rcases hb with rfl | hb
      · rfl
      · exact ih xs b hb

/-- If the batches processed before some batch of size ≠ 1 are all
singletons but too few to reach `num_examples`, the validation loop reaches
that batch and aborts with the assertion message before decoding it. -/
theorem runValidationLoop_error {ε δ : Type} [Inhabited δ] (m : Model ε δ)
    (ts tt : Tokenizer) (ml n : Nat) :
    ∀ (pre : List Batch) (count : Nat) (bad : Batch) (rest : List Batch),
      (∀ b ∈ pre, b.encoder_input.length = 1) → count + pre.length < n →
      bad.encoder_input.length ≠ 1 →
      runValidationLoop m ts tt ml n (pre ++ bad :: rest) count =
        .error "Batch size must be 1 for validation" := by
  intro pre
  induction pre with
  | nil =>
    intro count bad rest _ _ hbad
    simp only [List.nil_append, runValidationLoop, if_neg hbad]
  | cons b pre ih =>
    intro count bad rest hpre hcount hbad
    have hb : b.encoder_input.length = 1 := hpre b (by simp)
    simp only [List.cons_append, runValidationLoop, if_pos hb]
    rw [if_neg (by simp at hcount; omega)]
    simp only [List.append_eq]
    rw [ih (count + 1) bad rest (fun x hx => hpre x (by simp [hx])) (by simp at hcount; omega) hbad]

/-- **C5.** Validation batches always have batch size exactly 1: the
validation loader is built with batch size 1, so every batch it yields is a
singleton, and `run_validation` aborts with the fatal assertion
`Batch size must be 1 for validation` on any processed batch whose leading
dimension is not 1, before invoking the greedy decoder on it. -/
theorem validation_batch_size_enforced {α ε δ : Type} [Inhabited δ] (m : Model ε δ)
    (tokenizer_src tokenizer_tgt : Tokenizer) (max_len num_examples : Nat)
    (val_ds : List α) (pre : List Batch) (bad : Batch) (rest : List Batch)
    (hpre : ∀ b ∈ pre, b.encoder_input.length = 1)
    (hcount : pre.length < num_examples)
    (hbad : bad.encoder_input.length ≠ 1) :
    (∀ b ∈ dataLoader 1 val_ds, b.length = 1) ∧
    run_validation m (pre ++ bad :: rest) tokenizer_src tokenizer_tgt max_len num_examples =
      .error "Batch size must be 1 for validation" := by
  constructor
  · intro b hb
    exact chunkAux_one_length val_ds.length val_ds b hb
  · exact runValidationLoop_error m tokenizer_src tokenizer_tgt max_len num_examples
      pre 0 bad rest hpre (by omega) hbad

/-- Witness for **C5**: the loader built from a 3-element dataset yields
singletons, and a batch of leading dimension 0 aborts the run. -/
theorem validation_batch_size_enforced_witness :
    (∀ b ∈ dataLoader 1 [7, 8, 9], b.length = 1) ∧
    run_validation toyModel [badBatch] toyTok toyTok 4 2 =
      .error "Batch size must be 1 for validation" :=
  validation_batch_size_enforced toyModel toyTok toyTok 4 2 [7, 8, 9] [] badBatch []
    (by simp) (by decide) (by decide)

/-- **C6, counterexample.** With `num_examples = 0` and a validation set of
one batch (which is at least 0 batches), `run_validation` does not process
exactly 0 batches: the `count == num_examples` check runs only after a batch
has been processed, so one sample is reported instead of none. -/
theorem run_validation_zero_examples_cex :
    run_validation toyModel [goodBatch] toyTok toyTok 4 0 = .ok [⟨"s", "t", "t"⟩] ∧
    sampleCount (run_validation toyModel [goodBatch] toyTok toyTok 4 0) ≠ some 0 := by
  constructor
  · rfl
  · decide

/-- The validation loop processes exactly `n − count` further batches when
they are available singletons: it reports one sample per processed batch and
never looks past the first `n − count` batches. -/
theorem runValidationLoop_exact {ε δ : Type} [Inhabited δ] (m : Model ε δ)
    (ts tt : Tokenizer) (ml n : Nat) :
    ∀ (batches : List Batch) (count : Nat),
      (∀ b ∈ batches, b.encoder_input.length = 1) → count < n →
      n ≤ count + batches.length →
      sampleCount (runValidationLoop m ts tt ml n batches count) = some (n - count) ∧
      runValidationLoop m ts tt ml n batches count =
        runValidationLoop m ts tt ml n (batches.take (n - count)) count := by
  intro batches
  induction batches with
  | nil =>
    intro count _ hlt hle
    simp at hle
    omega
  | cons b rest ih =>
    intro count hsz hlt hle
    have hb : b.encoder_input.length = 1 := hsz b (by simp)
    by_cases hstop : count + 1 = n
    · have htake : n - count = 1 := by omega
      rw [htake]
      simp only [List.take_succ_cons, List.take_zero]
      simp only [runValidationLoop, if_pos hb, if_pos hstop]
      simp [sampleCount]
    · have hlt' : count + 1 < n := by omega
      have hle' : n ≤ (count + 1) + rest.length := by simp at hle; omega
      obtain ⟨ihc, ihe⟩ := ih (count + 1) (fun x hx => hsz x (by simp [hx])) hlt' hle'
      cases hres : runValidationLoop m ts tt ml n rest (count + 1) with
      | error e => rw [hres] at ihc; simp [sampleCount] at ihc
      | ok s =>
        rw [hres] at ihc ihe
        have hslen : s.length = n - (count + 1) := by
          simp [sampleCount] at ihc
          omega
        have htake : n - count = (n - (count + 1)) + 1 := by omega
        constructor
        · simp only [runValidationLoop, if_pos hb, if_neg hstop, hres]
          simp [sampleCount, hslen]
          omega
        · rw [htake]
          simp only [List.take_succ_cons]
          simp only [runValidationLoop, if_pos hb, if_neg hstop, hres, ← ihe]

/-- **C6, amended.** For every `num_examples = n ≥ 1`, `run_validation` over
a validation set of singleton batches yielding at least n batches processes
exactly n batches — reporting one sample (source, reference and predicted
text) per processed batch — and then halts, leaving the remaining batches
unconsumed; with the default `n = 2` and 5 available batches it processes
exactly 2. -/
theorem run_validation_processes_num_examples {ε δ : Type} [Inhabited δ]
    (m : Model ε δ) (ts tt : Tokenizer) (ml n : Nat) (batches : List Batch)
    (hn : 1 ≤ n)
    (hsz : ∀ b ∈ batches, b.encoder_input.length = 1)
    (hlen : n ≤ batches.length) :
    sampleCount (run_validation m batches ts tt ml n) = some n ∧
    run_validation m batches ts tt ml n =
      run_validation m (batches.take n) ts tt ml n := by
  obtain ⟨hc, he⟩ := runValidationLoop_exact m ts tt ml n batches 0 hsz (by omega)
    (by omega)
  exact ⟨by simpa using hc, by simpa using he⟩

/-- Witness for **C6**: `num_examples = 2` against 5 available batches
processes exactly 2. -/
theorem run_validation_processes_num_examples_witness :
    sampleCount (run_validation toyModel (List.replicate 5 goodBatch) toyTok toyTok 4 2) =
        some 2 ∧
    run_validation toyModel (List.replicate 5 goodBatch) toyTok toyTok 4 2 =
      run_validation toyModel ((List.replicate 5 goodBatch).take 2) toyTok toyTok 4 2 :=
  run_validation_processes_num_examples toyModel toyTok toyTok 4 2
    (List.replicate 5 goodBatch) (by decide)
    (fun b hb => by rw [List.eq_of_mem_replicate hb]; rfl) (by simp)

/-- **C9.** `run_validation` leaves the model parameters unchanged: it calls
`model.eval()` (which clears only the training-mode flag) and runs under
`torch.no_grad()` with forward passes only — no optimizer step and no
parameter assignment — so every parameter has the same value after the call
as before it, for every validation dataset and `num_examples`. -/
theorem run_validation_preserves_params {π ε δ : Type} [Inhabited δ]
    (fw : π → Model ε δ) (mod : TorchModule π) (validation_ds : List Batch)
    (ts tt : Tokenizer) (ml n : Nat) :
    (run_validation_module fw mod validation_ds ts tt ml n).1.params = mod.params ∧
    (run_validation_module fw mod validation_ds ts tt ml n).1.training = false ∧
    (run_validation_module fw mod validation_ds ts tt ml n).2 =
      run_validation (fw mod.params) validation_ds ts tt ml n :=
  ⟨rfl, rfl, rfl⟩

/-- Positions whose label equals the ignored index neither survive the
`ignore_index` filter nor influence which pairs do: two logit lists agreeing
at every kept position produce the same filtered pair list. -/
theorem zip_filter_congr {α : Type} [Inhabited α] :
    ∀ (labels : List Nat) (l₁ l₂ : List α) (pad : Nat),
      l₁.length = labels.length → l₂.length = labels.length →
      (∀ i, i < labels.length → labels.getD i 0 ≠ pad →
        l₁.getD i default = l₂.getD i default) →
      (l₁.zip labels).filter (fun p => decide (p.2 ≠ pad)) =
        (l₂.zip labels).filter (fun p => decide (p.2 ≠ pad)) := by
  intro labels
  induction labels with
  | nil =>
    intro l₁ l₂ pad h1 h2 _
    rw [List.length_nil, List.length_eq_zero] at h1 h2
    rw [h1, h2]
  | cons t ts ih =>
    intro l₁ l₂ pad h1 h2 hagree
    cases l₁ with
    | nil => simp at h1
    | cons x xs =>
      cases l₂ with
      | nil => simp at h2
      | cons y ys =>
        have h1' : xs.length = ts.length := by simpa using h1
        have h2' : ys.length = ts.length := by simpa using h2
        have hrec := ih xs ys pad h1' h2' (fun i hi hne => by
          have := hagree (i + 1) (by simpa using Nat.succ_lt_succ hi)
            (by rwa [List.getD_cons_succ])
          rwa [List.getD_cons_succ, List.getD_cons_succ] at this)
        by_cases ht : t = pad
        · subst ht
          simp [List.filter_cons]
          simpa using hrec
        · have hx : x = y := by
            have := hagree 0 (by simp) (by rwa [List.getD_cons_zero])
            rwa [List.getD_cons_zero, List.getD_cons_zero] at this
          subst hx
          simp [List.filter_cons, ht]
          simpa using hrec

/-- **C1.** The training loss excludes all label positions equal to PAD from
the loss reduction.  The code passes the SOURCE tokenizer's `[PAD]` id as
`ignore_index` while labels are target-vocabulary ids, so under the
hypothesis that the two tokenizers assign `[PAD]` the same id: the reduced
loss is the mean of the per-position losses over the positions whose label
is not the target PAD id only, and the loss value is independent of the
logits at PAD-label positions — those positions contribute neither to the
reduced value nor to the gradient. -/
theorem pad_positions_excluded_from_loss {α : Type} [Inhabited α]
    (ell : α → Nat → ℚ) (tokenizer_src tokenizer_tgt : Tokenizer)
    (proj₁ proj₂ : List α) (label : List Nat)
    (hpad : tokenizer_src.token_to_id "[PAD]" = tokenizer_tgt.token_to_id "[PAD]")
    (h1 : proj₁.length = label.length) (h2 : proj₂.length = label.length)
    (hagree : ∀ i, i < label.length →
      label.getD i 0 ≠ tokenizer_tgt.token_to_id "[PAD]" →
      proj₁.getD i default = proj₂.getD i default) :
    train_batch_loss ell tokenizer_src proj₁ label =
      (((proj₁.zip label).filter
          (fun p => decide (p.2 ≠ tokenizer_tgt.token_to_id "[PAD]"))).map
            (fun p => ell p.1 p.2)).sum /
        ((((proj₁.zip label).filter
          (fun p => decide (p.2 ≠ tokenizer_tgt.token_to_id "[PAD]"))).length : ℚ)) ∧
    train_batch_loss ell tokenizer_src proj₁ label =
      train_batch_loss ell tokenizer_src proj₂ label := by
  constructor
  · simp [train_batch_loss, cross_entropy_loss, hpad]
  · simp only [train_batch_loss, cross_entropy_loss, hpad]
    rw [zip_filter_congr label proj₁ proj₂ _ h1 h2 hagree]

/-- Witness for **C1** with PAD = 0 in both toy tokenizers: changing the
logits at the PAD-labelled position leaves the loss unchanged. -/
theorem pad_positions_excluded_from_loss_witness :
    train_batch_loss (fun (x : Int) (t : Nat) => (x : ℚ) + t) toyTok [3, 7] [5, 0] =
      ((([(3 : Int), 7].zip [5, 0]).filter
          (fun p => decide (p.2 ≠ toyTok.token_to_id "[PAD]"))).map
            (fun p => ((p.1 : ℚ) + p.2))).sum /
        (((([(3 : Int), 7].zip [5, 0]).filter
          (fun p => decide (p.2 ≠ toyTok.token_to_id "[PAD]"))).length : ℚ)) ∧
    train_batch_loss (fun (x : Int) (t : Nat) => (x : ℚ) + t) toyTok [3, 7] [5, 0] =
      train_batch_loss (fun (x : Int) (t : Nat) => (x : ℚ) + t) toyTok [3, 100] [5, 0] :=
  pad_positions_excluded_from_loss (fun (x : Int) (t : Nat) => (x : ℚ) + t)
    toyTok toyTok [3, 7] [3, 100] [5, 0] rfl (by decide) (by decide)
    (by decide)

/-- The global step advances by exactly one per training batch. -/
theorem runEpoch_global_step {π ω β : Type} (upd : π → ω → β → π × ω) :
    ∀ (batches : List β) (p : π) (o : ω) (gs : Nat),
      (runEpoch upd batches p o gs).2.2 = gs + batches.length := by
  intro batches
  induction batches with
  | nil => intro p o gs; rfl
  | cons b bs ih =>
    intro p o gs
    have hstep : runEpoch upd (b :: bs) p o gs =
        runEpoch upd bs (upd p o b).1 (upd p o b).2 (gs + 1) := rfl
    rw [hstep, ih]
    simp
    omega

/-- The epoch indices of the saved checkpoints are exactly the epochs the
loop iterates over. -/
theorem trainEpochsLoop_map_epoch {π ω β : Type} (upd : π → ω → β → π × ω)
    (batches : List β) :
    ∀ (es : List Nat) (p : π) (o : ω) (gs : Nat),
      (trainEpochsLoop upd batches es p o gs).map Ckpt.epoch = es := by
  intro es
  induction es with
  | nil => intro p o gs; rfl
  | cons e es ih =>
    intro p o gs
    simp only [trainEpochsLoop, List.map_cons, ih]

/-- **C8.** At the end of every training epoch a checkpoint holding exactly
the epoch index, the model state, the optimizer state and the global step is
saved to a fresh per-epoch file: the saved epoch indices are exactly
`initial_epoch, …, num_epochs − 1` and pairwise distinct, so no existing
checkpoint file (whose name embeds its epoch index) is rewritten.  When a
preload selector resolves to a saved checkpoint, training resumes at the
saved epoch index plus one with the saved model state, optimizer state and
global step restored — so the first checkpoint written afterwards carries
global step `saved step + number of batches`. -/
theorem checkpoint_lifecycle {π ω β : Type} (num_epochs : Nat) (st : Ckpt π ω)
    (upd : π → ω → β → π × ω) (batches : List β) (p₀ : π) (o₀ : ω)
    (hlt : st.epoch + 1 < num_epochs) :
    (train_model num_epochs (some st) upd batches p₀ o₀).map Ckpt.epoch =
        List.range' (st.epoch + 1) (num_epochs - (st.epoch + 1)) ∧
    ((train_model num_epochs (some st) upd batches p₀ o₀).map Ckpt.epoch).Nodup ∧
    train_model num_epochs (some st) upd batches p₀ o₀ =
      trainEpochsLoop upd batches
        (List.range' (st.epoch + 1) (num_epochs - (st.epoch + 1)))
        st.model_state_dict st.optimizer_state_dict st.global_step ∧
    ((train_model num_epochs (some st) upd batches p₀ o₀).map Ckpt.global_step).head? =
        some (st.global_step + batches.length) ∧
    train_model num_epochs none upd batches p₀ o₀ =
      trainEpochsLoop upd batches (List.range' 0 num_epochs) p₀ o₀ 0 := by
  have hmap : (train_model num_epochs (some st) upd batches p₀ o₀).map Ckpt.epoch =
      List.range' (st.epoch + 1) (num_epochs - (st.epoch + 1)) :=
    trainEpochsLoop_map_epoch upd batches _ _ _ _
  refine ⟨hmap, ?_, rfl, ?_, ?_⟩
  · rw [hmap]
    exact List.nodup_range' _ _
  · obtain ⟨k, hk⟩ : ∃ k, num_epochs - (st.epoch + 1) = k + 1 :=
      ⟨num_epochs - (st.epoch + 1) - 1, by omega⟩
    show ((trainEpochsLoop upd batches
        (List.range' (st.epoch + 1) (num_epochs - (st.epoch + 1)))
        st.model_state_dict st.optimizer_state_dict st.global_step).map
          Ckpt.global_step).head? = _
    rw [hk, List.range'_succ]
    simp only [trainEpochsLoop, List.map_cons, List.head?_cons]
    rw [runEpoch_global_step]
  · show trainEpochsLoop upd batches (List.range' 0 (num_epochs - 0)) p₀ o₀ 0 = _
    rw [Nat.sub_zero]

/-- Witness for **C8**: resuming from the checkpoint of epoch 3 with 6 total
epochs saves checkpoints for epochs 4 and 5 only. -/
theorem checkpoint_lifecycle_witness :
    (train_model 6 (some ⟨3, 100, 200, 7⟩) updToy [10, 20] 0 0).map Ckpt.epoch =
        List.range' (3 + 1) (6 - (3 + 1)) ∧
    ((train_model 6 (some ⟨3, 100, 200, 7⟩) updToy [10, 20] 0 0).map Ckpt.epoch).Nodup ∧
    train_model 6 (some ⟨3, 100, 200, 7⟩) updToy [10, 20] 0 0 =
      trainEpochsLoop updToy [10, 20] (List.range' (3 + 1) (6 - (3 + 1))) 100 200 7 ∧
    ((train_model 6 (some ⟨3, 100, 200, 7⟩) updToy [10, 20] 0 0).map
        Ckpt.global_step).head? = some (7 + [10, 20].length) ∧
    train_model 6 (none : Option (Ckpt Nat Nat)) updToy [10, 20] 0 0 =
      trainEpochsLoop updToy [10, 20] (List.range' 0 6) 0 0 0 :=
  checkpoint_lifecycle 6 ⟨3, 100, 200, 7⟩ updToy [10, 20] 0 0 (by decide)

end Train
